import Mathlib

/-!
Shallow embedding of the BasisCore in-process cache engine
(`bclib/cache/dict_cache_manager.py`) and of the invalidation-channel factory
(`src/cache/signaler/factory.py`), together with theorems checking the
specification's claims about them.

The store embeds the `OrderedDict[str, list[BaseCacheItem]]` of
`DictMemoryCacheManager` as an association list whose head is the least
recently inserted or touched key: `popitem(last=False)` removes the head and
`move_to_end` moves a key's pair to the back.
-/

namespace BasisCore

/-- Modelled from the spec: the `CacheStatus` enum (`cache_status.py` is not in
the sources).  The statuses used by the spec are UPDATED, SET, RESET, CLEANED,
REMOVED and NONE (plus ADDED, mentioned only in docstrings). -/
inductive CacheStatus where
  | ADDED
  | UPDATED
  | SET
  | RESET
  | CLEANED
  | REMOVED
  | NONE
  deriving DecidableEq

/-- A stored cache entry.  `CostumCacheItem(data, life_time)` is value-backed
(`fnId = none`); `FunctionCacheItem(None, life_time, function)` is
function-backed, `fnId` identifying the wrapped computation.  Per the spec's
entry model, `expiresAt = now + life_time` at creation/refresh time and the
item also keeps its `life_time`. -/
structure CacheItem (α : Type) where
  payload : Option α
  expiresAt : Int
  lifeTime : Int
  fnId : Option Nat := none
  deriving DecidableEq

/-- Modelled from the spec: `data()` of a cache item (the `BaseCacheItem`
subclasses are not in the sources): "returns payload if `now < expiresAt`,
else a sentinel absent (no implicit removal)".  A stored Python `None` payload
is `Option.none`, so it also reads back as absent. -/
def CacheItem.data (now : Int) (it : CacheItem α) : Option α :=
  if now < it.expiresAt then it.payload else none

/-- The cache store: the `OrderedDict` of `DictMemoryCacheManager`, head =
least recently inserted/touched key. -/
abbrev Store (α : Type) := List (String × List (CacheItem α))

/-- `key in self.__cache_dict`. -/
def hasKey (k : String) : Store α → Bool
  | [] => false
  | (k', _) :: s => if k' = k then true else hasKey k s

/-- `self.__cache_dict[key]` as an optional read. -/
def findBucket (k : String) : Store α → Option (List (CacheItem α))
  | [] => none
  | (k', b) :: s => if k' = k then some b else findBucket k s

/-- Remove the (first, hence only) pair with the given key, as
`OrderedDict.pop(key)` does; no change when the key is absent. -/
def eraseKey (k : String) : Store α → Store α
  | [] => []
  | (k', b) :: s => if k' = k then s else (k', b) :: eraseKey k s

/-- Replace the bucket stored under an existing key in place (list mutation in
Python keeps the pair's position). -/
def replaceBucket (k : String) (nb : List (CacheItem α)) : Store α → Store α
  | [] => []
  | (k', b) :: s => if k' = k then (k', nb) :: s else (k', b) :: replaceBucket k nb s

/-- `OrderedDict.move_to_end(key)`. -/
def moveToEnd (k : String) (s : Store α) : Store α :=
  match findBucket k s with
  | some b => eraseKey k s ++ [(k, b)]
  | none => s

/-- `_size`: `len(self.__cache_dict)` — the number of keys, not of entries. -/
def size (s : Store α) : Nat := s.length

/-- Modelled from the spec: `_is_valid_size` lives in the base class
`InMemoryCacheManager`, which is not in the sources; per the spec the store is
"bounded by `capacity` (counted in number of keys)", so the size is valid when
it does not exceed the capacity. -/
def isValidSize (cap : Nat) (s : Store α) : Bool := size s ≤ cap

/-- `DictMemoryCacheManager._add_to_cache`: append to an existing bucket and
move it to the back; otherwise insert a fresh singleton bucket at the back and,
if the size is no longer valid, `popitem(last=False)` (drop the head).  Returns
UPDATED in both branches. -/
def add_to_cache (cap : Nat) (k : String) (it : CacheItem α) (s : Store α) :
    Store α × CacheStatus :=
  match findBucket k s with
  | some b => (eraseKey k s ++ [(k, b ++ [it])], CacheStatus.UPDATED)
  | none =>
    let s1 := s ++ [(k, [it])]
    if isValidSize cap s1 then (s1, CacheStatus.UPDATED)
    else (s1.tail, CacheStatus.UPDATED)

/-- `DictMemoryCacheManager.get_cache`: on a hit, move the key to the back and
return the non-absent `data()` payloads in bucket order, or `None` when that
list is empty (`len(cache_list) > 0` check); on a miss return `None`. -/
def get_cache (now : Int) (k : String) (s : Store α) : Option (List α) × Store α :=
  match findBucket k s with
  | some b =>
    let lst := b.filterMap (CacheItem.data now)
    (if 0 < lst.length then some lst else none, moveToEnd k s)
  | none => (none, s)

/-- `DictMemoryCacheManager.reset`: with no keys (or an empty list) start from
a fresh `OrderedDict`; otherwise `pop` each listed key that is present.
Always returns RESET. -/
def reset (keys : Option (List String)) (s : Store α) : Store α × CacheStatus :=
  match keys with
  | Option.none => ([], CacheStatus.RESET)
  | some ks =>
    if ks.length = 0 then ([], CacheStatus.RESET)
    else (ks.foldl (fun acc k => if hasKey k acc then eraseKey k acc else acc) s,
          CacheStatus.RESET)

/-- The bucket filter of `_clean`: keep the items whose `data()` is present. -/
def validItems (now : Int) (b : List (CacheItem α)) : List (CacheItem α) :=
  b.filter (fun it => (CacheItem.data now it).isSome)

/-- The rebuild loop of `DictMemoryCacheManager._clean`: iterate the keys in
order, filter each bucket down to the items whose `data()` is present, and keep
the key only when the filtered bucket is non-empty. -/
def cleanLoop (now : Int) (acc : Store α) : Store α → Store α
  | [] => acc
  | (k, b) :: s =>
    let valid := validItems now b
    if 0 < valid.length then cleanLoop now (acc ++ [(k, valid)]) s
    else cleanLoop now acc s

/-- `DictMemoryCacheManager._clean`: rebuild the store and return CLEANED. -/
def clean (now : Int) (s : Store α) : Store α × CacheStatus :=
  (cleanLoop now [] s, CacheStatus.CLEANED)

/-- The scan of `remove`: is there an item whose `data()` equals the argument?
(Python compares `item.data() == data`; an expired item matches `None`.) -/
def findMatch [DecidableEq α] (now : Int) (d : Option α) : List (CacheItem α) → Bool
  | [] => false
  | it :: b => if CacheItem.data now it = d then true else findMatch now d b

/-- `cache_list.remove(selected_item)`: drop the first item whose `data()`
equals the argument. -/
def eraseMatch [DecidableEq α] (now : Int) (d : Option α) :
    List (CacheItem α) → List (CacheItem α)
  | [] => []
  | it :: b => if CacheItem.data now it = d then b else it :: eraseMatch now d b

/-- `DictMemoryCacheManager.remove`: scan the key's bucket for the first item
whose `data()` equals the argument; remove it and return REMOVED, else NONE.
The pair keeps its position (no `move_to_end`), and an emptied bucket stays in
the store. -/
def remove [DecidableEq α] (now : Int) (k : String) (d : Option α) (s : Store α) :
    Store α × CacheStatus :=
  match findBucket k s with
  | some b =>
    if findMatch now d b then (replaceBucket k (eraseMatch now d b) s, CacheStatus.REMOVED)
    else (s, CacheStatus.NONE)
  | Option.none => (s, CacheStatus.NONE)

/-- `DictMemoryCacheManager.set_data`: `self.__cache_dict[key] = [item]`
followed by `move_to_end(key)` — replace (or create) the bucket with a
singleton at the back.  No capacity check.  Returns SET. -/
def set_data (k : String) (it : CacheItem α) (s : Store α) : Store α × CacheStatus :=
  (eraseKey k s ++ [(k, [it])], CacheStatus.SET)

/-- The `life_time` argument of `cache_decorator`: a Python `int`, an explicit
`None`, or omitted — in which case the parameter takes its declared default
value, which in the source is the *string* `"None"`. -/
inductive LifeTimeArg where
  | int (t : Int)
  | pyNone
  | omitted
  deriving DecidableEq

/-- Python exceptions raised on the `cache_decorator` paths. -/
inductive PyError where
  | typeError
  | valueError
  deriving DecidableEq

/-- Line 48 of `dict_cache_manager.py`:
`life_time = min(life_time, self._max_life_time) if life_time is not None else
self._default_life_time`.  An explicit `None` selects the default life time; a
supplied `int` is capped by `min`; an *omitted* argument leaves the default
value, the string `"None"`, which `is not None`, so `min(str, int)` raises a
`TypeError`. -/
def resolve_life_time (maxLT defLT : Int) : LifeTimeArg → Except PyError Int
  | LifeTimeArg.int t => Except.ok (min t maxLT)
  | LifeTimeArg.pyNone => Except.ok defLT
  | LifeTimeArg.omitted => Except.error PyError.typeError

/-- The function-backed item built at decoration time:
`FunctionCacheItem(None, life_time, function)`, with `expiresAt = now +
life_time` per the spec's entry model. -/
def mkFunctionItem (now lt : Int) (fid : Nat) : CacheItem α :=
  { payload := none, expiresAt := now + lt, lifeTime := lt, fnId := some fid }

/-- `DictMemoryCacheManager.cache_decorator` applied to a function `fid` at
time `now`: resolve the life time (line 48, may raise `TypeError`), then at
decoration time register a `FunctionCacheItem` under the key via
`_add_to_cache` — unless the key is `None`, in which case
`ValueError("key is None!")` is raised.  Returns the mutated store and the
item the wrapper stays bound to (`function.cache`). -/
def cache_decorator (cap : Nat) (maxLT defLT : Int) (key : Option String)
    (lt : LifeTimeArg) (fid : Nat) (now : Int) (s : Store α) :
    Except PyError (Store α × CacheItem α) :=
  match resolve_life_time maxLT defLT lt with
  | Except.error e => Except.error e
  | Except.ok t =>
    match key with
    | some k =>
      let it : CacheItem α := mkFunctionItem now t fid
      Except.ok ((add_to_cache cap k it s).1, it)
    | Option.none => Except.error PyError.valueError

/-- Modelled from the spec: `FunctionCacheItem.get_data` (not in the sources):
"if `data()` is present, return it; otherwise invoke the computation, store the
result via refresh, and return it".  `fns` interprets computation identifiers;
a value-backed item has no computation to run. -/
def getData (fns : Nat → α) (now : Int) (it : CacheItem α) : Option (α × CacheItem α) :=
  match CacheItem.data now it with
  | some v => some (v, it)
  | Option.none =>
    match it.fnId with
    | some f =>
      some (fns f, { it with payload := some (fns f), expiresAt := now + it.lifeTime })
    | Option.none => none

/-- The public cache operations of the claims, with the inputs each call
carries (`add_or_update key data life_time` builds a `CostumCacheItem` and
delegates to `_add_to_cache`; we let the operation carry the built item). -/
inductive Op (α : Type) where
  | addOrUpdate (k : String) (it : CacheItem α)
  | setData (k : String) (it : CacheItem α)
  | getCache (now : Int) (k : String)
  | removeData (now : Int) (k : String) (d : Option α)
  | resetKeys (keys : Option (List String))
  | cleanUp (now : Int)
  | memoize (key : Option String) (lt : LifeTimeArg) (fid : Nat) (now : Int)

/-- The store after one public call.  A call that raises
(`cache_decorator` with a bad key or omitted life time) mutates nothing,
because the raise happens before `_add_to_cache` runs. -/
def step [DecidableEq α] (cap : Nat) (maxLT defLT : Int) (s : Store α) : Op α → Store α
  | Op.addOrUpdate k it => (add_to_cache cap k it s).1
  | Op.setData k it => (set_data k it s).1
  | Op.getCache now k => (get_cache now k s).2
  | Op.removeData now k d => (remove now k d s).1
  | Op.resetKeys keys => (reset keys s).1
  | Op.cleanUp now => (clean now s).1
  | Op.memoize key lt fid now =>
    match cache_decorator cap maxLT defLT key lt fid now s with
    | Except.ok (s', _) => s'
    | Except.error _ => s

/-- Run a sequence of public calls from the empty store. -/
def run [DecidableEq α] (cap : Nat) (maxLT defLT : Int) (ops : List (Op α)) : Store α :=
  ops.foldl (step cap maxLT defLT) []

/-- Is the operation a `set_data` call? -/
def Op.isSetData : Op α → Bool
  | Op.setData _ _ => true
  | _ => false

/-- The keys of a store, in order. -/
def keys (s : Store α) : List String := s.map Prod.fst

/-! ### Basic store lemmas -/

theorem hasKey_eq_isSome_findBucket (k : String) (s : Store α) :
    hasKey k s = (findBucket k s).isSome := by
  induction s with
  | nil => rfl
  | cons p s ih =>
    obtain ⟨k', b⟩ := p
    by_cases h : k' = k <;> simp [hasKey, findBucket, h, ih]

theorem hasKey_eq_mem_keys (k : String) (s : Store α) :
    hasKey k s = decide (k ∈ keys s) := by
  induction s with
  | nil => simp [hasKey, keys]
  | cons p s ih =>
    obtain ⟨k', b⟩ := p
    by_cases h : k' = k
    · simp [hasKey, keys, h]
    · simp only [hasKey, if_neg h, ih]
      simp [keys, Ne.symm h]

theorem not_mem_keys_of_hasKey_eq_false {k : String} {s : Store α}
    (h : hasKey k s = false) : k ∉ keys s := by
  rw [hasKey_eq_mem_keys] at h
  simpa using h

theorem eraseKey_of_hasKey_eq_false {k : String} {s : Store α}
    (h : hasKey k s = false) : eraseKey k s = s := by
  induction s with
  | nil => rfl
  | cons p s ih =>
    obtain ⟨k', b⟩ := p
    by_cases hk : k' = k
    · simp [hasKey, hk] at h
    · simp [hasKey, hk] at h
      simp [eraseKey, hk, ih h]

theorem length_eraseKey {k : String} {s : Store α}
    (h : hasKey k s = true) : (eraseKey k s).length + 1 = s.length := by
  induction s with
  | nil => simp [hasKey] at h
  | cons p s ih =>
    obtain ⟨k', b⟩ := p
    by_cases hk : k' = k
    · simp [eraseKey, hk]
    · simp [hasKey, hk] at h
      simp [eraseKey, hk, ih h]

theorem eraseKey_sublist (k : String) (s : Store α) :
    List.Sublist (eraseKey k s) s := by
  induction s with
  | nil => simp [eraseKey]
  | cons p s ih =>
    obtain ⟨k', b⟩ := p
    by_cases hk : k' = k
    · simp only [eraseKey, if_pos hk]
      exact List.sublist_cons_self (k', b) s
    · simpa [eraseKey, hk] using ih.cons₂ (k', b)

theorem keys_replaceBucket (k : String) (nb : List (CacheItem α)) (s : Store α) :
    keys (replaceBucket k nb s) = keys s := by
  induction s with
  | nil => rfl
  | cons p s ih =>
    obtain ⟨k', b⟩ := p
    by_cases hk : k' = k
    · simp [replaceBucket, keys, hk]
    · simp only [replaceBucket, if_neg hk, keys, List.map_cons, List.cons.injEq, true_and]
      simpa [keys] using ih

theorem length_replaceBucket (k : String) (nb : List (CacheItem α)) (s : Store α) :
    (replaceBucket k nb s).length = s.length := by
  have h := keys_replaceBucket k nb s
  simpa [keys] using congrArg List.length h

theorem findBucket_replaceBucket_self {k : String} {s : Store α}
    (nb : List (CacheItem α)) (h : hasKey k s = true) :
    findBucket k (replaceBucket k nb s) = some nb := by
  induction s with
  | nil => simp [hasKey] at h
  | cons p s ih =>
    obtain ⟨k', b⟩ := p
    by_cases hk : k' = k
    · simp [replaceBucket, findBucket, hk]
    · simp [hasKey, hk] at h
      simp [replaceBucket, findBucket, hk, ih h]

theorem hasKey_replaceBucket (k' k : String) (nb : List (CacheItem α)) (s : Store α) :
    hasKey k' (replaceBucket k nb s) = hasKey k' s := by
  rw [hasKey_eq_mem_keys, hasKey_eq_mem_keys, keys_replaceBucket]

theorem length_moveToEnd (k : String) (s : Store α) :
    (moveToEnd k s).length = s.length := by
  unfold moveToEnd
  cases hfb : findBucket k s with
  | none => rfl
  | some b =>
    have hk : hasKey k s = true := by
      rw [hasKey_eq_isSome_findBucket, hfb]; rfl
    have h1 := length_eraseKey hk
    simp only [List.length_append, List.length_cons, List.length_nil]
    omega

/-! ### Characterization of the `reset` fold -/

theorem filter_ne_key_of_not_mem {s : Store α} {k : String} (h : k ∉ keys s) :
    s.filter (fun p => !decide (p.1 = k)) = s := by
  apply List.filter_eq_self.mpr
  intro p hp
  rw [Bool.not_eq_true', decide_eq_false_iff_not]
  intro he
  exact h (he ▸ List.mem_map_of_mem Prod.fst hp)

theorem eraseKey_eq_filter {s : Store α} (hnd : (keys s).Nodup) (k : String) :
    eraseKey k s = s.filter (fun p => !decide (p.1 = k)) := by
  induction s with
  | nil => rfl
  | cons p s ih =>
    obtain ⟨k', b⟩ := p
    simp only [keys, List.map_cons, List.nodup_cons] at hnd
    obtain ⟨hk', hnd⟩ := hnd
    by_cases hk : k' = k
    · have hns : k ∉ keys s := by
        rw [← hk]
        exact hk'
      simp [eraseKey, hk, List.filter_cons, filter_ne_key_of_not_mem hns]
    · simp [eraseKey, hk, List.filter_cons, ih hnd]

theorem keys_filter_sublist (q : String × List (CacheItem α) → Bool) (s : Store α) :
    List.Sublist (keys (s.filter q)) (keys s) :=
  (List.filter_sublist s).map Prod.fst

theorem keys_eraseKey_sublist (k : String) (s : Store α) :
    List.Sublist (keys (eraseKey k s)) (keys s) :=
  (eraseKey_sublist k s).map Prod.fst

/-- The `for key in keys: pop(key)` loop of `reset` behaves, on a store with
no duplicate keys, like filtering out the listed keys. -/
theorem resetLoop_eq_filter :
    ∀ (ks : List String) (s : Store α), (keys s).Nodup →
      ks.foldl (fun acc k => if hasKey k acc then eraseKey k acc else acc) s
        = s.filter (fun p => !decide (p.1 ∈ ks)) := by
  intro ks
  induction ks with
  | nil =>
    intro s _
    simp
  | cons k ks ih =>
    intro s hnd
    simp only [List.foldl_cons]
    by_cases hk : hasKey k s
    · rw [hk, if_pos rfl, ih _ (hnd.sublist (keys_eraseKey_sublist k s)),
        eraseKey_eq_filter hnd k, List.filter_filter]
      apply List.filter_congr
      intro p _
      by_cases h1 : p.1 = k <;> by_cases h2 : p.1 ∈ ks <;> simp [h1, h2]
    · have hk' : hasKey k s = false := by simpa using hk
      rw [hk', if_neg (by simp), ih _ hnd]
      apply List.filter_congr
      intro p hp
      have hpk : p.1 ≠ k := by
        intro hpe
        exact not_mem_keys_of_hasKey_eq_false hk'
          (hpe ▸ List.mem_map_of_mem Prod.fst hp)
      by_cases h2 : p.1 ∈ ks <;> simp [h2, hpk]

/-! ### Characterization of the `_clean` rebuild loop -/

theorem cleanLoop_eq (now : Int) (acc : Store α) (s : Store α) :
    cleanLoop now acc s
      = acc ++ (s.map (fun p => (p.1, validItems now p.2))).filter
          (fun p => !p.2.isEmpty) := by
  induction s generalizing acc with
  | nil => simp [cleanLoop]
  | cons p s ih =>
    obtain ⟨k, b⟩ := p
    cases hv : validItems now b with
    | nil => simp [cleanLoop, hv, ih]
    | cons it b' => simp [cleanLoop, hv, ih]

/-! ### Length bounds for the public operations -/

theorem length_add_to_cache_le {cap : Nat} {s : Store α}
    (h : s.length ≤ cap) (k : String) (it : CacheItem α) :
    ((add_to_cache cap k it s).1).length ≤ cap := by
  unfold add_to_cache
  cases hfb : findBucket k s with
  | some b =>
    have hk : hasKey k s = true := by
      rw [hasKey_eq_isSome_findBucket, hfb]; rfl
    have h1 := length_eraseKey hk
    simp only [List.length_append, List.length_cons, List.length_nil]
    omega
  | none =>
    by_cases hv : isValidSize cap (s ++ [(k, [it])]) = true
    · simp only [hv, if_pos]
      simpa [isValidSize, size] using hv
    · have hv' : isValidSize cap (s ++ [(k, [it])]) = false := by
        simpa using hv
      simp only [hv', Bool.false_eq_true, if_false]
      simp only [List.length_tail, List.length_append, List.length_cons, List.length_nil]
      omega

theorem length_resetLoop_le :
    ∀ (ks : List String) (s : Store α),
      (ks.foldl (fun acc k => if hasKey k acc then eraseKey k acc else acc) s).length
        ≤ s.length := by
  intro ks
  induction ks with
  | nil => intro s; simp
  | cons k ks ih =>
    intro s
    simp only [List.foldl_cons]
    refine (ih _).trans ?_
    by_cases hk : hasKey k s
    · rw [hk, if_pos rfl]
      have := length_eraseKey hk
      omega
    · simp [hk]

theorem length_cleanStore_le (now : Int) (s : Store α) :
    (clean now s).1.length ≤ s.length := by
  simp only [clean, cleanLoop_eq, List.nil_append]
  exact (List.length_filter_le _ _).trans (by simp)

theorem length_step_le [DecidableEq α] {cap : Nat} {maxLT defLT : Int} {s : Store α}
    {op : Op α} (hop : op.isSetData = false) (h : s.length ≤ cap) :
    (step cap maxLT defLT s op).length ≤ cap := by
  cases op with
  | addOrUpdate k it => exact length_add_to_cache_le h k it
  | setData k it => simp [Op.isSetData] at hop
  | getCache now k =>
    cases hfb : findBucket k s with
    | some b => simpa [step, get_cache, hfb, length_moveToEnd] using h
    | none => simpa [step, get_cache, hfb] using h
  | removeData now k d =>
    cases hfb : findBucket k s with
    | some b =>
      by_cases hm : findMatch now d b = true
      · simpa [step, remove, hfb, hm, length_replaceBucket] using h
      · simpa [step, remove, hfb, hm] using h
    | none => simpa [step, remove, hfb] using h
  | resetKeys ks =>
    cases ks with
    | none => simpa [step, reset] using Nat.zero_le cap
    | some l =>
      by_cases hl : l.length = 0
      · simpa [step, reset, hl] using Nat.zero_le cap
      · simp only [step, reset, hl, if_neg]
        exact (length_resetLoop_le l s).trans h
  | cleanUp now =>
    exact (length_cleanStore_le now s).trans h
  | memoize key lt fid now =>
    simp only [step]
    cases hcd : cache_decorator cap maxLT defLT key lt fid now s with
    | error e => simpa using h
    | ok pr =>
      obtain ⟨s', it⟩ := pr
      unfold cache_decorator at hcd
      cases hr : resolve_life_time maxLT defLT lt with
      | error e => rw [hr] at hcd; simp at hcd
      | ok t =>
        rw [hr] at hcd
        cases key with
        | none => simp at hcd
        | some k =>
          simp only [Except.ok.injEq, Prod.mk.injEq] at hcd
          obtain ⟨h1, _⟩ := hcd
          simpa [← h1] using length_add_to_cache_le h k (mkFunctionItem now t fid)

theorem length_runFrom_le [DecidableEq α] {cap : Nat} {maxLT defLT : Int} :
    ∀ (ops : List (Op α)) (s : Store α), (∀ op ∈ ops, op.isSetData = false) →
      s.length ≤ cap → (ops.foldl (step cap maxLT defLT) s).length ≤ cap := by
  intro ops
  induction ops with
  | nil => intro s _ h; simpa using h
  | cons op ops ih =>
    intro s hops h
    simp only [List.foldl_cons]
    exact ih _ (fun o ho => hops o (List.mem_cons_of_mem _ ho))
      (length_step_le (hops op (List.mem_cons_self _ _)) h)

/-! ### Concrete values used in counterexamples and witnesses -/

def kA : String := "A"

def kB : String := "B"

def kC : String := "C"

def kQ : String := "Q"

def kEmptyStr : String := ""

def itemZero : CacheItem Int :=
  { payload := some 0, expiresAt := 1, lifeTime := 1, fnId := none }

/-! ### Claim theorems -/

/-- C1 (amended): starting from the empty store, `size() ≤ capacity` holds
after every public call for every operation sequence that contains no
`set_data` call; `set_data` itself can push the size beyond the capacity
because it inserts without the capacity check of `_add_to_cache`. -/
theorem c1_size_le_capacity [DecidableEq α] (cap : Nat) (maxLT defLT : Int)
    (ops : List (Op α)) (h : ∀ op ∈ ops, op.isSetData = false) :
    size (run cap maxLT defLT ops) ≤ cap :=
  length_runFrom_le ops [] h (Nat.zero_le cap)

/-- C1 counterexample: with capacity 1, two `set_data` calls on distinct keys
leave the store at size 2, violating `size() ≤ capacity` as claimed for all
public operation sequences. -/
theorem c1_set_data_exceeds_capacity :
    ¬ (size (run 1 0 0 [Op.setData kA itemZero, Op.setData kB itemZero]) ≤ 1) := by
  decide

/-- Witness for C1: a `set_data`-free sequence at capacity 1 keeps the bound. -/
theorem c1_size_le_capacity_witness :
    size (run 1 0 0 [Op.addOrUpdate kA itemZero]) ≤ 1 :=
  c1_size_le_capacity 1 0 0 _ (by decide)

/-- C7: `reset` with no key list (or an empty one) empties the store, after
which `get_cache` of every key is absent; with a non-empty key list it deletes
exactly the listed buckets that exist (never raising on absent keys, being a
total function); and it returns RESET in every case. -/
theorem c7_reset_spec (s : Store α) (now : Int) :
    reset Option.none s = (([] : Store α), CacheStatus.RESET)
    ∧ reset (some []) s = (([] : Store α), CacheStatus.RESET)
    ∧ (∀ k, get_cache now k ([] : Store α) = (Option.none, ([] : Store α)))
    ∧ (∀ kss, (reset kss s).2 = CacheStatus.RESET)
    ∧ (∀ ks : List String, ks ≠ [] → (keys s).Nodup →
        (reset (some ks) s).1 = s.filter (fun p => !decide (p.1 ∈ ks))) := by
  refine ⟨rfl, by simp [reset], fun k => rfl, ?_, ?_⟩
  · intro kss
    cases kss with
    | none => rfl
    | some l =>
      by_cases hl : l.length = 0 <;> simp [reset, hl]
  · intro ks hne hnd
    have hl : ¬ ks.length = 0 := by simpa [List.length_eq_zero] using hne
    simp only [reset, hl, if_neg]
    exact resetLoop_eq_filter ks s hnd

/-- Witness for C7: resetting key A out of a two-key store deletes exactly
that bucket. -/
theorem c7_reset_spec_witness :
    (reset (some [kA]) ([(kA, [itemZero]), (kB, [itemZero])] : Store Int)).1
      = [(kB, [itemZero])] := by
  have h := (c7_reset_spec ([(kA, [itemZero]), (kB, [itemZero])] : Store Int) 0).2.2.2.2
    [kA] (by simp) (by decide)
  rw [h]
  decide

/-- C8: `clean()` returns CLEANED and rebuilds the store keeping, for each key
in its original enumeration order, exactly the entries whose `data()` is
present (in their original relative order), dropping every key whose filtered
bucket is empty. -/
theorem c8_clean_keeps_live_entries (now : Int) (s : Store α) :
    clean now s
      = ((s.map (fun p => (p.1, validItems now p.2))).filter (fun p => !p.2.isEmpty),
         CacheStatus.CLEANED) := by
  unfold clean
  rw [cleanLoop_eq]
  simp

/-- C3: `get_cache` returns absent on a miss (leaving the store unchanged); on
a hit it moves the key's bucket to the most-recently-touched end, returns the
non-absent `data()` payloads in bucket order, and returns absent — not an
empty list — when every entry's `data()` is absent. -/
theorem c3_get_cache_spec (now : Int) (k : String) (s : Store α) :
    (hasKey k s = false → get_cache now k s = (Option.none, s))
    ∧ (∀ b, findBucket k s = some b →
        (get_cache now k s).2 = eraseKey k s ++ [(k, b)]
        ∧ ((∀ it ∈ b, CacheItem.data now it = Option.none) →
            (get_cache now k s).1 = Option.none)
        ∧ (b.filterMap (CacheItem.data now) ≠ [] →
            (get_cache now k s).1 = some (b.filterMap (CacheItem.data now)))) := by
  constructor
  · intro h
    have hfb : findBucket k s = Option.none := by
      rw [hasKey_eq_isSome_findBucket] at h
      cases hfb : findBucket k s with
      | none => rfl
      | some b => rw [hfb] at h; simp at h
    simp [get_cache, hfb]
  · intro b hfb
    refine ⟨?_, ?_, ?_⟩
    · simp [get_cache, hfb, moveToEnd]
    · intro hall
      have hnil : b.filterMap (CacheItem.data now) = [] :=
        List.filterMap_eq_nil_iff.mpr hall
      simp [get_cache, hfb, hnil]
    · intro hne
      have hpos : 0 < (b.filterMap (CacheItem.data now)).length :=
        List.length_pos.mpr hne
      simp [get_cache, hfb, hpos]

/-- Witness for C3: a miss on key B leaves the one-key store untouched, and a
hit on key A returns its single live payload. -/
theorem c3_get_cache_spec_witness :
    get_cache 0 kB ([(kA, [itemZero])] : Store Int) = (Option.none, [(kA, [itemZero])])
    ∧ (get_cache 0 kA ([(kA, [itemZero])] : Store Int)).1 = some [0] := by
  refine ⟨(c3_get_cache_spec 0 kB ([(kA, [itemZero])] : Store Int)).1 (by decide), ?_⟩
  have h := ((c3_get_cache_spec 0 kA ([(kA, [itemZero])] : Store Int)).2
    [itemZero] (by decide)).2.2 (by decide)
  exact h.trans (by decide)

/-- A store without duplicate keys finds each member pair's bucket. -/
theorem findBucket_eq_of_mem {s : Store α} (hnd : (keys s).Nodup)
    {p : String × List (CacheItem α)} (hp : p ∈ s) : findBucket p.1 s = some p.2 := by
  induction s with
  | nil => cases hp
  | cons q s ih =>
    obtain ⟨k', b'⟩ := q
    simp only [keys, List.map_cons, List.nodup_cons] at hnd
    obtain ⟨hk', hnd⟩ := hnd
    rcases List.mem_cons.mp hp with hp | hp
    · rw [hp]
      simp [findBucket]
    · have hne : k' ≠ p.1 := by
        intro he
        exact hk' (he ▸ List.mem_map_of_mem Prod.fst hp)
      simp [findBucket, hne, ih hnd hp]

/-- C10: removing the only entry of a key's bucket returns REMOVED and leaves
the key in the store with an empty bucket; the size is unchanged (the key
still counts toward the capacity), `get_cache` of sthe key returns absent at
every time, and a later `clean` drops the key. -/
theorem c10_remove_empties_bucket [DecidableEq α] (now : Int) (k : String)
    (d : Option α) (s : Store α) (it : CacheItem α) (hnd : (keys s).Nodup)
    (hfb : findBucket k s = some [it]) (hd : CacheItem.data now it = d) :
    (remove now k d s).2 = CacheStatus.REMOVED
    ∧ findBucket k (remove now k d s).1 = some []
    ∧ size (remove now k d s).1 = size s
    ∧ hasKey k (remove now k d s).1 = true
    ∧ (∀ t, (get_cache t k (remove now k d s).1).1 = Option.none)
    ∧ (∀ t, hasKey k (clean t (remove now k d s).1).1 = false) := by
  have hk : hasKey k s = true := by
    rw [hasKey_eq_isSome_findBucket, hfb]; rfl
  have hrem : remove now k d s = (replaceBucket k [] s, CacheStatus.REMOVED) := by
    simp [remove, hfb, findMatch, eraseMatch, hd]
  rw [hrem]
  have hfb' : findBucket k (replaceBucket k [] s) = some ([] : List (CacheItem α)) :=
    findBucket_replaceBucket_self [] hk
  refine ⟨rfl, hfb', ?_, ?_, ?_, ?_⟩
  · simp [size, length_replaceBucket]
  · simp [hasKey_replaceBucket, hk]
  · intro t
    simp [get_cache, hfb']
  · intro t
    have hch : (clean t (replaceBucket k [] s)).1
        = ((replaceBucket k [] s).map (fun p => (p.1, validItems t p.2))).filter
            (fun p => !p.2.isEmpty) := by
      simp [clean, cleanLoop_eq]
    rw [hch, hasKey_eq_mem_keys]
    apply decide_eq_false
    intro hmem
    obtain ⟨p', hp', hpk⟩ := List.mem_map.mp hmem
    obtain ⟨hp'mem, hg⟩ := List.mem_filter.mp hp'
    obtain ⟨q, hq, hfq⟩ := List.mem_map.mp hp'mem
    have hq1 : q.1 = k := by
      rw [← hpk, ← hfq]
    have hnd' : (keys (replaceBucket k [] s)).Nodup := by
      rw [keys_replaceBucket]; exact hnd
    have hq2 : validItems t q.2 = validItems t ([] : List (CacheItem α)) := by
      have hfq2 := findBucket_eq_of_mem hnd' hq
      rw [hq1, hfb'] at hfq2
      rw [Option.some.injEq] at hfq2
      rw [hfq2]
    rw [← hfq, hq2] at hg
    simp [validItems] at hg

/-- Witness for C10: removing the only (live) entry of key A keeps key A in
the store with an empty bucket and status REMOVED. -/
theorem c10_remove_empties_bucket_witness :
    (remove 0 kA (some 0) ([(kA, [itemZero])] : Store Int)).2 = CacheStatus.REMOVED
    ∧ findBucket kA (remove 0 kA (some 0) ([(kA, [itemZero])] : Store Int)).1 = some []
    ∧ size (remove 0 kA (some 0) ([(kA, [itemZero])] : Store Int)).1 = 1 := by
  have h := c10_remove_empties_bucket 0 kA (some 0) ([(kA, [itemZero])] : Store Int)
    itemZero (by decide) (by decide) (by decide)
  exact ⟨h.1, h.2.1, h.2.2.1.trans (by decide)⟩

/-- C4 counterexample: supplying `life_time = -1` (with `max_life_time = 10`)
stores an entry whose effective life time is `-1`, outside `[0, max_life_time]`,
and omitting the argument altogether raises a TypeError (the parameter default
is the string `"None"`) instead of selecting the default life time. -/
theorem c4_life_time_counterexample :
    cache_decorator 10 10 5 (some kQ) (LifeTimeArg.int (-1)) 0 0 ([] : Store Int)
      = Except.ok ([(kQ, [⟨none, -1, -1, some 0⟩])], ⟨none, -1, -1, some 0⟩)
    ∧ ¬ (0 ≤ (⟨none, -1, -1, some 0⟩ : CacheItem Int).lifeTime)
    ∧ cache_decorator 10 10 5 (some kQ) LifeTimeArg.omitted 0 0 ([] : Store Int)
      = Except.error PyError.typeError := by
  exact ⟨rfl, by decide, rfl⟩

/-- C4 (amended): the life time stored in the registered entry equals
`min(life_time, max_life_time)` when an integer `life_time` is supplied —
hence it never exceeds `max_life_time`, and it lies in `[0, max_life_time]`
whenever the supplied value is nonnegative — a negative supplied value is
stored unclamped; passing `None` explicitly selects `default_life_time`
(not clamped to `max_life_time`); omitting the argument raises a `TypeError`
(the declared default is the string `"None"`), so no entry is stored at all. -/
theorem c4_life_time_resolution (cap : Nat) (maxLT defLT : Int) (k : String)
    (fid : Nat) (now : Int) (s : Store α) :
    (∀ t : Int, ∃ st : Store α,
      cache_decorator cap maxLT defLT (some k) (LifeTimeArg.int t) fid now s
        = Except.ok (st, mkFunctionItem now (min t maxLT) fid)
      ∧ (mkFunctionItem now (min t maxLT) fid : CacheItem α).lifeTime = min t maxLT
      ∧ (mkFunctionItem now (min t maxLT) fid : CacheItem α).lifeTime ≤ maxLT
      ∧ (0 ≤ t → 0 ≤ (mkFunctionItem now (min t maxLT) fid : CacheItem α).lifeTime
            ∨ maxLT < 0))
    ∧ (∃ st : Store α,
        cache_decorator cap maxLT defLT (some k) LifeTimeArg.pyNone fid now s
          = Except.ok (st, mkFunctionItem now defLT fid))
    ∧ cache_decorator cap maxLT defLT (some k) LifeTimeArg.omitted fid now s
        = Except.error PyError.typeError := by
  refine ⟨fun t => ⟨_, rfl, rfl, min_le_right t maxLT, ?_⟩, ⟨_, rfl⟩, rfl⟩
  intro ht
  rcases le_or_lt 0 maxLT with hm | hm
  · exact Or.inl (by simpa [mkFunctionItem] using le_min ht hm)
  · exact Or.inr hm

/-- Witness for C4 (amended): with `life_time = 3` and `max_life_time = 10`
the stored life time is `3`, which is nonnegative. -/
theorem c4_life_time_resolution_witness :
    (mkFunctionItem 0 (min 3 10) 7 : CacheItem Int).lifeTime = min 3 10
    ∧ (0 ≤ (mkFunctionItem 0 (min 3 10) 7 : CacheItem Int).lifeTime ∨ (10 : Int) < 0) := by
  obtain ⟨st, _, h1, _, h3⟩ := (c4_life_time_resolution 4 10 5 kQ 7 0 ([] : Store Int)).1 3
  exact ⟨h1, h3 (by decide)⟩

/-- C5 counterexample: an empty-string key passes the `key is not None` check,
so decoration raises nothing and registers the entry under `""`, contradicting
"for every empty or absent key ... fails with MissingKeyError". -/
theorem c5_empty_key_registers :
    cache_decorator 10 10 5 (some kEmptyStr) (LifeTimeArg.int 1) 0 0 ([] : Store Int)
      = Except.ok ([(kEmptyStr, [⟨none, 1, 1, some 0⟩])], ⟨none, 1, 1, some 0⟩) := by
  rfl

/-- C5 (amended): with a supplied `life_time` (an int or an explicit `None`),
decoration fails — with `ValueError("key is None!")`, the spec's
`MissingKeyError` — exactly when the key is absent (`None`), and it fails at
decoration time, before any call of the wrapped function, mutating nothing;
every string key, the empty string included, registers without raising. -/
theorem c5_missing_key_only_for_absent (cap : Nat) (maxLT defLT : Int)
    (lt : LifeTimeArg) (fid : Nat) (now : Int) (s : Store α)
    (hlt : lt ≠ LifeTimeArg.omitted) :
    cache_decorator cap maxLT defLT Option.none lt fid now s
      = Except.error PyError.valueError
    ∧ (∀ k : String, ∃ r, cache_decorator cap maxLT defLT (some k) lt fid now s
        = Except.ok r) := by
  cases lt with
  | int t => exact ⟨rfl, fun k => ⟨_, rfl⟩⟩
  | pyNone => exact ⟨rfl, fun k => ⟨_, rfl⟩⟩
  | omitted => exact absurd rfl hlt

/-- Witness for C5 (amended): key `None` raises `ValueError` while key "Q"
registers. -/
theorem c5_missing_key_only_for_absent_witness :
    cache_decorator 10 10 5 Option.none (LifeTimeArg.int 1) 0 0 ([] : Store Int)
      = Except.error PyError.valueError
    ∧ ∃ r, cache_decorator 10 10 5 (some kQ) (LifeTimeArg.int 1) 0 0 ([] : Store Int)
        = Except.ok r := by
  have h := c5_missing_key_only_for_absent 10 10 5 (LifeTimeArg.int 1) 0 0
    ([] : Store Int) (by decide)
  exact ⟨h.1, h.2 kQ⟩

/-- C6 counterexample: registering `f1` then `f2` under key Q leaves a bucket
holding *both* function entries — the first binding is appended to, not
discarded, so the store does not retain only the second function's entry. -/
theorem c6_second_registration_appends :
    cache_decorator 10 10 5 (some kQ) (LifeTimeArg.int 1) 1 0 ([] : Store Int)
      = Except.ok ([(kQ, [⟨none, 1, 1, some 1⟩])], ⟨none, 1, 1, some 1⟩)
    ∧ cache_decorator 10 10 5 (some kQ) (LifeTimeArg.int 1) 2 0
        ([(kQ, [⟨none, 1, 1, some 1⟩])] : Store Int)
      = Except.ok ([(kQ, [⟨none, 1, 1, some 1⟩, ⟨none, 1, 1, some 2⟩])],
          ⟨none, 1, 1, some 2⟩)
    ∧ ([(⟨none, 1, 1, some 1⟩ : CacheItem Int), ⟨none, 1, 1, some 2⟩]
        ≠ [(⟨none, 1, 1, some 2⟩ : CacheItem Int)]) := by
  exact ⟨rfl, rfl, by decide⟩

/-- C6 (amended): registering twice under one key raises no error, and calls
through the second wrapper run the second function (its bound entry's
computation is `f2`, invoked whenever the entry's `data()` is absent); but the
first binding is not discarded from the store — the bucket under the key
retains both entries, in registration order. -/
theorem c6_double_registration (cap : Nat) (maxLT defLT : Int) (k : String)
    (t1 t2 : Int) (f1 f2 : Nat) (n1 n2 : Int) (fns : Nat → α) (hcap : 1 ≤ cap) :
    ∃ s1 : Store α, ∃ it1 it2 : CacheItem α,
      cache_decorator cap maxLT defLT (some k) (LifeTimeArg.int t1) f1 n1 ([] : Store α)
        = Except.ok (s1, it1)
      ∧ cache_decorator cap maxLT defLT (some k) (LifeTimeArg.int t2) f2 n2 s1
          = Except.ok ([(k, [it1, it2])], it2)
      ∧ it2.fnId = some f2
      ∧ (∀ now, CacheItem.data now it2 = Option.none →
          (getData fns now it2).map Prod.fst = some (fns f2)) := by
  refine ⟨[(k, [mkFunctionItem n1 (min t1 maxLT) f1])],
    mkFunctionItem n1 (min t1 maxLT) f1, mkFunctionItem n2 (min t2 maxLT) f2,
    ?_, ?_, rfl, ?_⟩
  · have hv : isValidSize cap ([(k, [mkFunctionItem n1 (min t1 maxLT) f1])] : Store α)
        = true := by
      simpa [isValidSize, size] using hcap
    simp [cache_decorator, resolve_life_time, add_to_cache, findBucket, hv]
  · simp [cache_decorator, resolve_life_time, add_to_cache, findBucket, eraseKey]
  · intro now h
    unfold getData
    rw [h]
    simp [mkFunctionItem]

/-! ### The invalidation-channel factory (`src/cache/signaler/factory.py`) -/

/-- Modelled from the spec: the two signaler classes.  `NoSignaler` needs no
external resources; `RabbitSignaller`'s broker connection is the collaborator's
concern, so construction itself is a plain constructor. -/
inductive Signaler where
  | rabbitSignaller
  | noSignaler
  deriving DecidableEq

def typeField : String := "type"

def tagRabbit : String := "rabbit"

def tagNone : String := "none"

def msgUnknownSignaler : String := "unknown type for cache signaller"

/-- `options["type"] if options and "type" in options else "none"`: a missing
options dict, an empty one, or one without a `type` field all resolve to
`"none"`. -/
def signalerType (options : Option (List (String × String))) : String :=
  match options with
  | some opts =>
    match opts.lookup typeField with
    | some t => t
    | Option.none => tagNone
  | Option.none => tagNone

/-- `create_signaler`: dispatch on the resolved type tag, constructing
`RabbitSignaller` for `"rabbit"` and `NoSignaler` for `"none"`, and raising
(`Exception`, the spec's `ConfigurationError`) on any other tag — at
construction time, before any channel is returned. -/
def create_signaler (options : Option (List (String × String))) : Except String Signaler :=
  let signaler_type := signalerType options
  if signaler_type = tagRabbit then Except.ok Signaler.rabbitSignaller
  else if signaler_type = tagNone then Except.ok Signaler.noSignaler
  else Except.error msgUnknownSignaler

/-- C9: `create_signaler` fails at construction time on every configuration
whose resolved type tag is neither "rabbit" nor "none", and returns a channel
without raising on each recognized tag (an absent configuration resolves to
"none"). -/
theorem c9_create_signaler_dispatch (options : Option (List (String × String))) :
    (signalerType options ≠ tagRabbit → signalerType options ≠ tagNone →
      create_signaler options = Except.error msgUnknownSignaler)
    ∧ (signalerType options = tagRabbit →
        create_signaler options = Except.ok Signaler.rabbitSignaller)
    ∧ (signalerType options = tagNone →
        create_signaler options = Except.ok Signaler.noSignaler)
    ∧ create_signaler Option.none = Except.ok Signaler.noSignaler := by
  refine ⟨?_, ?_, ?_, rfl⟩
  · intro h1 h2
    simp [create_signaler, h1, h2]
  · intro h1
    simp [create_signaler, h1]
  · intro h2
    by_cases h1 : signalerType options = tagRabbit
    · rw [h1] at h2
      exact absurd h2 (by decide)
    · simp [create_signaler, h1, h2]
      decide

def tagMqtt : String := "mqtt"

/-- Witness for C9: an unrecognized tag "mqtt" raises; the tag "rabbit"
constructs the broker-backed signaler. -/
theorem c9_create_signaler_dispatch_witness :
    create_signaler (some [(typeField, tagMqtt)]) = Except.error msgUnknownSignaler
    ∧ create_signaler (some [(typeField, tagRabbit)]) = Except.ok Signaler.rabbitSignaller :=
  ⟨(c9_create_signaler_dispatch (some [(typeField, tagMqtt)])).1 (by decide) (by decide),
   (c9_create_signaler_dispatch (some [(typeField, tagRabbit)])).2.1 (by decide)⟩

/-!
### Recency instrumentation for the eviction claim

To state "the evicted bucket is the least-recently-touched one", the store is
shadowed by a ghost store whose nodes also carry the step index of their last
touch (insertion, append, `set_data` overwrite, or `get_cache` hit).  The
ghost operations mirror the real ones; a projection lemma proves the shadow
faithful, and an invariant proves the key order sorted by last touch, so the
head removed by `popitem(last=False)` is the least-recently-touched bucket.
-/

/-- A store pair together with the step index of its last touch. -/
structure ANode (α : Type) where
  key : String
  bucket : List (CacheItem α)
  touch : Nat

/-- The ghost store. -/
abbrev AStore (α : Type) := List (ANode α)

/-- Forget the ghost touch indices. -/
def aProj (a : AStore α) : Store α := a.map (fun nd => (nd.key, nd.bucket))

/-- The last-touch indices, in store order. -/
def touches (a : AStore α) : List Nat := a.map ANode.touch

def aFind (k : String) : AStore α → Option (ANode α)
  | [] => none
  | nd :: a => if nd.key = k then some nd else aFind k a

def aErase (k : String) : AStore α → AStore α
  | [] => []
  | nd :: a => if nd.key = k then a else nd :: aErase k a

def aReplace (k : String) (nb : List (CacheItem α)) : AStore α → AStore α
  | [] => []
  | nd :: a =>
    if nd.key = k then { nd with bucket := nb } :: a else nd :: aReplace k nb a

/-- Ghost `_add_to_cache` at step index `clock`. -/
def aAdd (clock cap : Nat) (k : String) (it : CacheItem α) (a : AStore α) : AStore α :=
  match aFind k a with
  | some nd => aErase k a ++ [⟨k, nd.bucket ++ [it], clock⟩]
  | none =>
    let a1 := a ++ [⟨k, [it], clock⟩]
    if a1.length ≤ cap then a1 else a1.tail

/-- Ghost `set_data`. -/
def aSet (clock : Nat) (k : String) (it : CacheItem α) (a : AStore α) : AStore α :=
  aErase k a ++ [⟨k, [it], clock⟩]

/-- Ghost `get_cache` (its store effect: promote on hit). -/
def aGet (clock : Nat) (k : String) (a : AStore α) : AStore α :=
  match aFind k a with
  | some nd => aErase k a ++ [⟨k, nd.bucket, clock⟩]
  | none => a

/-- Ghost `remove` (no touch). -/
def aRemove [DecidableEq α] (now : Int) (k : String) (d : Option α) (a : AStore α) :
    AStore α :=
  match aFind k a with
  | some nd =>
    if findMatch now d nd.bucket then aReplace k (eraseMatch now d nd.bucket) a else a
  | none => a

/-- Ghost `reset` (no touch). -/
def aReset (ks : Option (List String)) (a : AStore α) : AStore α :=
  match ks with
  | Option.none => []
  | some l =>
    if l.length = 0 then []
    else l.foldl (fun acc k => if (aFind k acc).isSome then aErase k acc else acc) a

/-- Ghost `_clean` (keeps the surviving nodes' touches). -/
def aClean (now : Int) (a : AStore α) : AStore α :=
  (a.map (fun nd => { nd with bucket := validItems now nd.bucket })).filter
    (fun nd => !nd.bucket.isEmpty)

/-- Ghost step, mirroring `step` with the current step index as clock. -/
def astep [DecidableEq α] (cap : Nat) (maxLT defLT : Int) (clock : Nat)
    (a : AStore α) : Op α → AStore α
  | Op.addOrUpdate k it => aAdd clock cap k it a
  | Op.setData k it => aSet clock k it a
  | Op.getCache _ k => aGet clock k a
  | Op.removeData now k d => aRemove now k d a
  | Op.resetKeys ks => aReset ks a
  | Op.cleanUp now => aClean now a
  | Op.memoize key lt fid now =>
    match resolve_life_time maxLT defLT lt with
    | Except.ok t =>
      match key with
      | some k => aAdd clock cap k (mkFunctionItem now t fid) a
      | Option.none => a
    | Except.error _ => a

def arunFrom [DecidableEq α] (cap : Nat) (maxLT defLT : Int) :
    List (Op α) → AStore α → Nat → AStore α
  | [], a, _ => a
  | op :: ops, a, c => arunFrom cap maxLT defLT ops (astep cap maxLT defLT c a op) (c + 1)

/-- The ghost run from the empty store, clocking steps 0, 1, 2, …. -/
def arun [DecidableEq α] (cap : Nat) (maxLT defLT : Int) (ops : List (Op α)) : AStore α :=
  arunFrom cap maxLT defLT ops [] 0

/-! ### The ghost store projects onto the real one -/

theorem findBucket_aProj (k : String) (a : AStore α) :
    findBucket k (aProj a) = (aFind k a).map ANode.bucket := by
  induction a with
  | nil => rfl
  | cons nd a ih =>
    by_cases h : nd.key = k <;> simp [aProj, findBucket, aFind, h] <;>
      simpa [aProj] using ih

theorem aProj_aErase (k : String) (a : AStore α) :
    aProj (aErase k a) = eraseKey k (aProj a) := by
  induction a with
  | nil => rfl
  | cons nd a ih =>
    by_cases h : nd.key = k <;> simp [aProj, eraseKey, aErase, h] <;>
      simpa [aProj] using ih

theorem aProj_aReplace (k : String) (nb : List (CacheItem α)) (a : AStore α) :
    aProj (aReplace k nb a) = replaceBucket k nb (aProj a) := by
  induction a with
  | nil => rfl
  | cons nd a ih =>
    by_cases h : nd.key = k <;> simp [aProj, replaceBucket, aReplace, h] <;>
      simpa [aProj] using ih

theorem aProj_append (a b : AStore α) : aProj (a ++ b) = aProj a ++ aProj b :=
  List.map_append _ a b

theorem aProj_tail (a : AStore α) : aProj a.tail = (aProj a).tail := by
  cases a <;> rfl

theorem length_aProj (a : AStore α) : (aProj a).length = a.length :=
  List.length_map a _

theorem aProj_aAdd (clock cap : Nat) (k : String) (it : CacheItem α) (a : AStore α) :
    aProj (aAdd clock cap k it a) = (add_to_cache cap k it (aProj a)).1 := by
  cases hf : aFind k a with
  | some nd =>
    have h1 : aAdd clock cap k it a = aErase k a ++ [⟨k, nd.bucket ++ [it], clock⟩] := by
      simp [aAdd, hf]
    have h2 : add_to_cache cap k it (aProj a)
        = (eraseKey k (aProj a) ++ [(k, nd.bucket ++ [it])], CacheStatus.UPDATED) := by
      simp [add_to_cache, findBucket_aProj, hf]
    rw [h1, h2, aProj_append, aProj_aErase]
    rfl
  | none =>
    have hfb : findBucket k (aProj a) = Option.none := by
      rw [findBucket_aProj, hf]; rfl
    by_cases hlen : a.length + 1 ≤ cap
    · have h1 : aAdd clock cap k it a = a ++ [⟨k, [it], clock⟩] := by
        simp [aAdd, hf, hlen]
      have hv : isValidSize cap (aProj a ++ [(k, [it])]) = true := by
        simp only [isValidSize, size, List.length_append, length_aProj,
          List.length_cons, List.length_nil]
        simpa using hlen
      have h2 : add_to_cache cap k it (aProj a)
          = (aProj a ++ [(k, [it])], CacheStatus.UPDATED) := by
        simp [add_to_cache, hfb, hv]
      rw [h1, h2, aProj_append]
      rfl
    · have h1 : aAdd clock cap k it a = (a ++ [(⟨k, [it], clock⟩ : ANode α)]).tail := by
        simp [aAdd, hf, hlen]
      have hv : isValidSize cap (aProj a ++ [(k, [it])]) = false := by
        simp only [isValidSize, size, List.length_append, length_aProj,
          List.length_cons, List.length_nil]
        simpa using hlen
      have h2 : add_to_cache cap k it (aProj a)
          = ((aProj a ++ [(k, [it])]).tail, CacheStatus.UPDATED) := by
        simp [add_to_cache, hfb, hv]
      rw [h1, h2, aProj_tail, aProj_append]
      rfl

theorem aProj_aSet (clock : Nat) (k : String) (it : CacheItem α) (a : AStore α) :
    aProj (aSet clock k it a) = (set_data k it (aProj a)).1 := by
  show aProj (aErase k a ++ [⟨k, [it], clock⟩]) = eraseKey k (aProj a) ++ [(k, [it])]
  rw [aProj_append, aProj_aErase]
  rfl

theorem aProj_aGet (clock : Nat) (now : Int) (k : String) (a : AStore α) :
    aProj (aGet clock k a) = (get_cache now k (aProj a)).2 := by
  cases hf : aFind k a with
  | some nd =>
    have h1 : aGet clock k a = aErase k a ++ [⟨k, nd.bucket, clock⟩] := by
      simp [aGet, hf]
    have h2 : (get_cache now k (aProj a)).2 = eraseKey k (aProj a) ++ [(k, nd.bucket)] := by
      simp [get_cache, findBucket_aProj, hf, moveToEnd]
    rw [h1, h2, aProj_append, aProj_aErase]
    rfl
  | none =>
    have hfb : findBucket k (aProj a) = Option.none := by
      rw [findBucket_aProj, hf]; rfl
    simp [aGet, hf, get_cache, hfb]

theorem aProj_aRemove [DecidableEq α] (now : Int) (k : String) (d : Option α)
    (a : AStore α) : aProj (aRemove now k d a) = (remove now k d (aProj a)).1 := by
  cases hf : aFind k a with
  | some nd =>
    have hfb : findBucket k (aProj a) = some nd.bucket := by
      rw [findBucket_aProj, hf]; rfl
    by_cases hm : findMatch now d nd.bucket = true
    · have h1 : aRemove now k d a = aReplace k (eraseMatch now d nd.bucket) a := by
        simp [aRemove, hf, hm]
      have h2 : (remove now k d (aProj a)).1
          = replaceBucket k (eraseMatch now d nd.bucket) (aProj a) := by
        simp [remove, hfb, hm]
      rw [h1, h2, aProj_aReplace]
    · have h1 : aRemove now k d a = a := by
        simp [aRemove, hf, hm]
      have h2 : (remove now k d (aProj a)).1 = aProj a := by
        simp [remove, hfb, hm]
      rw [h1, h2]
  | none =>
    have hfb : findBucket k (aProj a) = Option.none := by
      rw [findBucket_aProj, hf]; rfl
    simp [aRemove, hf, remove, hfb]

theorem aProj_resetFold :
    ∀ (ks : List String) (a : AStore α),
      aProj (ks.foldl (fun acc k => if (aFind k acc).isSome then aErase k acc else acc) a)
        = ks.foldl (fun acc k => if hasKey k acc then eraseKey k acc else acc) (aProj a) := by
  intro ks
  induction ks with
  | nil => intro a; rfl
  | cons k ks ih =>
    intro a
    simp only [List.foldl_cons]
    have hc : hasKey k (aProj a) = (aFind k a).isSome := by
      rw [hasKey_eq_isSome_findBucket, findBucket_aProj, Option.isSome_map']
    by_cases hf : (aFind k a).isSome = true
    · rw [if_pos hf, hc, if_pos hf, ih, aProj_aErase]
    · rw [if_neg hf, hc, if_neg hf, ih]

theorem aProj_aReset (ks : Option (List String)) (a : AStore α) :
    aProj (aReset ks a) = (reset ks (aProj a)).1 := by
  cases ks with
  | none => rfl
  | some l =>
    by_cases hl : l.length = 0
    · simp [aReset, reset, hl, aProj]
    · simp only [aReset, reset, hl, if_neg]
      exact aProj_resetFold l a

theorem aClean_char (now : Int) (a : AStore α) :
    aProj (aClean now a)
      = ((aProj a).map (fun p => (p.1, validItems now p.2))).filter
          (fun p => !p.2.isEmpty) := by
  induction a with
  | nil => rfl
  | cons nd a ih =>
    by_cases hv : (validItems now nd.bucket).isEmpty = true
    · simpa [aClean, aProj, hv] using ih
    · simpa [aClean, aProj, hv] using ih

theorem aProj_aClean (now : Int) (a : AStore α) :
    aProj (aClean now a) = (clean now (aProj a)).1 := by
  rw [aClean_char]
  simp [clean, cleanLoop_eq]

theorem aProj_astep [DecidableEq α] (cap : Nat) (maxLT defLT : Int) (clock : Nat)
    (a : AStore α) (op : Op α) :
    aProj (astep cap maxLT defLT clock a op) = step cap maxLT defLT (aProj a) op := by
  cases op with
  | addOrUpdate k it => exact aProj_aAdd clock cap k it a
  | setData k it => exact aProj_aSet clock k it a
  | getCache now k => exact aProj_aGet clock now k a
  | removeData now k d => exact aProj_aRemove now k d a
  | resetKeys ks => exact aProj_aReset ks a
  | cleanUp now => exact aProj_aClean now a
  | memoize key lt fid now =>
    simp only [astep, step, cache_decorator]
    cases hr : resolve_life_time maxLT defLT lt with
    | error e => rfl
    | ok t =>
      cases key with
      | none => rfl
      | some k => exact aProj_aAdd clock cap k (mkFunctionItem now t fid) a

theorem aProj_arunFrom [DecidableEq α] (cap : Nat) (maxLT defLT : Int) :
    ∀ (ops : List (Op α)) (a : AStore α) (c : Nat),
      aProj (arunFrom cap maxLT defLT ops a c)
        = ops.foldl (step cap maxLT defLT) (aProj a) := by
  intro ops
  induction ops with
  | nil => intro a c; rfl
  | cons op ops ih =>
    intro a c
    simp only [arunFrom, List.foldl_cons]
    rw [ih, aProj_astep]

/-- The ghost run projects onto the real run. -/
theorem aProj_arun [DecidableEq α] (cap : Nat) (maxLT defLT : Int) (ops : List (Op α)) :
    aProj (arun cap maxLT defLT ops) = run cap maxLT defLT ops :=
  aProj_arunFrom cap maxLT defLT ops [] 0

/-! ### The ghost store is sorted by last touch -/

theorem aErase_sublist (k : String) (a : AStore α) :
    List.Sublist (aErase k a) a := by
  induction a with
  | nil => simp [aErase]
  | cons nd a ih =>
    by_cases hk : nd.key = k
    · simp only [aErase, if_pos hk]
      exact List.sublist_cons_self nd a
    · simp only [aErase, if_neg hk]
      exact ih.cons₂ nd

theorem touches_tail (a : AStore α) : touches a.tail = (touches a).tail := by
  cases a <;> rfl

theorem touches_map_bucket (f : List (CacheItem α) → List (CacheItem α)) (a : AStore α) :
    touches (a.map (fun nd => { nd with bucket := f nd.bucket })) = touches a := by
  induction a with
  | nil => rfl
  | cons nd a ih => simp only [touches, List.map_cons] at ih ⊢; rw [ih]

theorem touches_aReplace (k : String) (nb : List (CacheItem α)) (a : AStore α) :
    touches (aReplace k nb a) = touches a := by
  induction a with
  | nil => rfl
  | cons nd a ih =>
    by_cases hk : nd.key = k
    · simp [aReplace, touches, hk]
    · simp only [aReplace, if_neg hk, touches, List.map_cons, List.cons.injEq, true_and]
      simpa [touches] using ih

theorem touches_aClean_sublist (now : Int) (a : AStore α) :
    List.Sublist (touches (aClean now a)) (touches a) := by
  have h1 : List.Sublist (touches (aClean now a))
      (touches (a.map (fun nd => { nd with bucket := validItems now nd.bucket }))) :=
    (List.filter_sublist _).map ANode.touch
  rwa [touches_map_bucket] at h1

theorem resetFold_sublist :
    ∀ (ks : List String) (a : AStore α),
      List.Sublist
        (ks.foldl (fun acc k => if (aFind k acc).isSome then aErase k acc else acc) a) a := by
  intro ks
  induction ks with
  | nil => intro a; exact List.Sublist.refl a
  | cons k ks ih =>
    intro a
    simp only [List.foldl_cons]
    refine (ih _).trans ?_
    by_cases hf : (aFind k a).isSome = true
    · rw [if_pos hf]
      exact aErase_sublist k a
    · rw [if_neg hf]

/-- A sublist of the store keeps the sortedness invariant; the touch bound
grows with the clock. -/
theorem inv_sublist {a b : AStore α} {c : Nat}
    (hs : List.Sublist (touches b) (touches a))
    (h1 : (touches a).Pairwise (· < ·)) (h2 : ∀ t ∈ touches a, t < c) :
    (touches b).Pairwise (· < ·) ∧ ∀ t ∈ touches b, t < c + 1 :=
  ⟨h1.sublist hs, fun t ht => Nat.lt_succ_of_lt (h2 t (hs.subset ht))⟩

/-- Appending a node touched at the current clock after any sublist of the
store keeps the sortedness invariant. -/
theorem inv_append {a b : AStore α} {c : Nat} {nd : ANode α}
    (hs : List.Sublist (touches b) (touches a))
    (h1 : (touches a).Pairwise (· < ·)) (h2 : ∀ t ∈ touches a, t < c)
    (hnd : nd.touch = c) :
    (touches (b ++ [nd])).Pairwise (· < ·) ∧ ∀ t ∈ touches (b ++ [nd]), t < c + 1 := by
  have hb1 : (touches b).Pairwise (· < ·) := h1.sublist hs
  have hb2 : ∀ t ∈ touches b, t < c := fun t ht => h2 t (hs.subset ht)
  have htb : touches (b ++ [nd]) = touches b ++ [nd.touch] := by
    simp [touches]
  constructor
  · rw [htb]
    apply List.pairwise_append.mpr
    refine ⟨hb1, List.pairwise_singleton _ _, ?_⟩
    intro x hx y hy
    simp only [List.mem_singleton] at hy
    rw [hy, hnd]
    exact hb2 x hx
  · intro t ht
    rw [htb] at ht
    rcases List.mem_append.mp ht with h | h
    · exact Nat.lt_succ_of_lt (hb2 t h)
    · simp only [List.mem_singleton] at h
      rw [h, hnd]
      exact Nat.lt_succ_self c

theorem inv_aAdd {cap c : Nat} {a : AStore α} (k : String) (it : CacheItem α)
    (h1 : (touches a).Pairwise (· < ·)) (h2 : ∀ t ∈ touches a, t < c) :
    (touches (aAdd c cap k it a)).Pairwise (· < ·)
    ∧ ∀ t ∈ touches (aAdd c cap k it a), t < c + 1 := by
  cases hf : aFind k a with
  | some nd =>
    have he : aAdd c cap k it a = aErase k a ++ [⟨k, nd.bucket ++ [it], c⟩] := by
      simp [aAdd, hf]
    rw [he]
    exact inv_append ((aErase_sublist k a).map ANode.touch) h1 h2 rfl
  | none =>
    by_cases hlen : a.length + 1 ≤ cap
    · have he : aAdd c cap k it a = a ++ [⟨k, [it], c⟩] := by
        simp [aAdd, hf, hlen]
      rw [he]
      exact inv_append (List.Sublist.refl _) h1 h2 rfl
    · have he : aAdd c cap k it a = (a ++ [(⟨k, [it], c⟩ : ANode α)]).tail := by
        simp [aAdd, hf, hlen]
      rw [he]
      have hfull := @inv_append α a a c (⟨k, [it], c⟩ : ANode α)
        (List.Sublist.refl _) h1 h2 rfl
      have hts : List.Sublist (touches ((a ++ [(⟨k, [it], c⟩ : ANode α)]).tail))
          (touches (a ++ [(⟨k, [it], c⟩ : ANode α)])) := by
        rw [touches_tail]
        exact List.tail_sublist _
      exact ⟨hfull.1.sublist hts, fun t ht => hfull.2 t (hts.subset ht)⟩

theorem inv_astep [DecidableEq α] {cap : Nat} {maxLT defLT : Int} {c : Nat}
    {a : AStore α} (op : Op α)
    (h1 : (touches a).Pairwise (· < ·)) (h2 : ∀ t ∈ touches a, t < c) :
    (touches (astep cap maxLT defLT c a op)).Pairwise (· < ·)
    ∧ ∀ t ∈ touches (astep cap maxLT defLT c a op), t < c + 1 := by
  cases op with
  | addOrUpdate k it => exact inv_aAdd k it h1 h2
  | setData k it =>
    exact inv_append ((aErase_sublist k a).map ANode.touch) h1 h2 rfl
  | getCache now k =>
    show (touches (aGet c k a)).Pairwise (· < ·) ∧ ∀ t ∈ touches (aGet c k a), t < c + 1
    cases hf : aFind k a with
    | some nd =>
      have he : aGet c k a = aErase k a ++ [⟨k, nd.bucket, c⟩] := by
        simp [aGet, hf]
      rw [he]
      exact inv_append ((aErase_sublist k a).map ANode.touch) h1 h2 rfl
    | none =>
      have he : aGet c k a = a := by
        simp [aGet, hf]
      rw [he]
      exact inv_sublist (List.Sublist.refl _) h1 h2
  | removeData now k d =>
    show (touches (aRemove now k d a)).Pairwise (· < ·)
        ∧ ∀ t ∈ touches (aRemove now k d a), t < c + 1
    have hts : touches (aRemove now k d a) = touches a := by
      cases hf : aFind k a with
      | some nd =>
        by_cases hm : findMatch now d nd.bucket = true
        · have he : aRemove now k d a = aReplace k (eraseMatch now d nd.bucket) a := by
            simp [aRemove, hf, hm]
          rw [he, touches_aReplace]
        · simp [aRemove, hf, hm]
      | none => simp [aRemove, hf]
    rw [hts]
    exact ⟨h1, fun t ht => Nat.lt_succ_of_lt (h2 t ht)⟩
  | resetKeys ks =>
    show (touches (aReset ks a)).Pairwise (· < ·)
        ∧ ∀ t ∈ touches (aReset ks a), t < c + 1
    have hts : List.Sublist (touches (aReset ks a)) (touches a) := by
      cases ks with
      | none => simp [aReset, touches]
      | some l =>
        by_cases hl : l.length = 0
        · simp [aReset, hl, touches]
        · simp only [aReset, hl, if_neg]
          exact (resetFold_sublist l a).map ANode.touch
    exact inv_sublist hts h1 h2
  | cleanUp now =>
    exact inv_sublist (touches_aClean_sublist now a) h1 h2
  | memoize key lt fid now =>
    show (touches (astep cap maxLT defLT c a (Op.memoize key lt fid now))).Pairwise (· < ·)
        ∧ ∀ t ∈ touches (astep cap maxLT defLT c a (Op.memoize key lt fid now)), t < c + 1
    cases hr : resolve_life_time maxLT defLT lt with
    | error e =>
      have he : astep cap maxLT defLT c a (Op.memoize key lt fid now) = a := by
        simp [astep, hr]
      rw [he]
      exact inv_sublist (List.Sublist.refl _) h1 h2
    | ok t =>
      cases key with
      | none =>
        have he : astep cap maxLT defLT c a (Op.memoize Option.none lt fid now) = a := by
          simp [astep, hr]
        rw [he]
        exact inv_sublist (List.Sublist.refl _) h1 h2
      | some k =>
        have he : astep cap maxLT defLT c a (Op.memoize (some k) lt fid now)
            = aAdd c cap k (mkFunctionItem now t fid) a := by
          simp [astep, hr]
        rw [he]
        exact inv_aAdd k (mkFunctionItem now t fid) h1 h2

theorem inv_arunFrom [DecidableEq α] {cap : Nat} {maxLT defLT : Int} :
    ∀ (ops : List (Op α)) (a : AStore α) (c : Nat),
      (touches a).Pairwise (· < ·) → (∀ t ∈ touches a, t < c) →
      (touches (arunFrom cap maxLT defLT ops a c)).Pairwise (· < ·)
      ∧ ∃ c', ∀ t ∈ touches (arunFrom cap maxLT defLT ops a c), t < c' := by
  intro ops
  induction ops with
  | nil => intro a c h1 h2; exact ⟨h1, c, h2⟩
  | cons op ops ih =>
    intro a c h1 h2
    have hstep := @inv_astep α _ cap maxLT defLT c a op h1 h2
    exact ih (astep cap maxLT defLT c a op) (c + 1) hstep.1 hstep.2

/-- The whole ghost run, from the empty store, is sorted by last touch. -/
theorem touches_arun_pairwise [DecidableEq α] (cap : Nat) (maxLT defLT : Int)
    (ops : List (Op α)) :
    (touches (arun cap maxLT defLT ops)).Pairwise (· < ·) :=
  (inv_arunFrom ops [] 0 (by simp [touches]) (by simp [touches])).1

/-- In a store sorted by last touch, the head is least-recently touched. -/
theorem head_touch_min {a : AStore α} (hp : (touches a).Pairwise (· < ·)) :
    ∀ nd0 ∈ a.head?, ∀ nd ∈ a, nd0.touch ≤ nd.touch := by
  cases a with
  | nil => simp
  | cons x a =>
    intro nd0 h0 nd hnd
    simp only [List.head?_cons, Option.mem_def, Option.some.injEq] at h0
    subst h0
    simp only [touches, List.map_cons] at hp
    rcases List.mem_cons.mp hnd with h | h
    · rw [h]
    · exact le_of_lt ((List.pairwise_cons.mp hp).1 nd.touch
        (List.mem_map_of_mem ANode.touch h))

/-- C2: on every state reachable by public calls from the empty store, a put
(`_add_to_cache`) of a new key whose insertion exceeds the capacity evicts
exactly one bucket — the head of the recency order, which the ghost
instrumentation proves least-recently-touched (stale keys keep strictly
increasing touch indices, so insertion order is the tie-break among untouched
buckets); and in particular, with capacity 2, put(A), put(B), put(C) leaves
exactly the keys [B, C]. -/
theorem c2_eviction_lru :
    (∀ (α : Type) [DecidableEq α] (cap : Nat) (maxLT defLT : Int)
        (ops : List (Op α)) (k : String) (it : CacheItem α),
      hasKey k (run cap maxLT defLT ops) = false →
      cap < size (run cap maxLT defLT ops) + 1 →
      (add_to_cache cap k it (run cap maxLT defLT ops)).1
          = ((run cap maxLT defLT ops) ++ [(k, [it])]).tail
      ∧ size (add_to_cache cap k it (run cap maxLT defLT ops)).1
          = size (run cap maxLT defLT ops)
      ∧ ∀ nd0 ∈ (arun cap maxLT defLT ops).head?,
          (run cap maxLT defLT ops).head? = some (nd0.key, nd0.bucket)
          ∧ ∀ nd ∈ arun cap maxLT defLT ops, nd0.touch ≤ nd.touch)
    ∧ keys (run 2 0 0 [Op.addOrUpdate kA itemZero, Op.addOrUpdate kB itemZero,
        Op.addOrUpdate kC itemZero]) = [kB, kC] := by
  constructor
  · intro α inst cap maxLT defLT ops k it hk hover
    have hfb : findBucket k (run cap maxLT defLT ops) = Option.none := by
      rw [hasKey_eq_isSome_findBucket] at hk
      cases hfb : findBucket k (run cap maxLT defLT ops) with
      | none => rfl
      | some b => rw [hfb] at hk; simp at hk
    have hv : isValidSize cap (run cap maxLT defLT ops ++ [(k, [it])]) = false := by
      simp only [isValidSize, size, List.length_append, List.length_cons, List.length_nil]
      simp only [size] at hover
      simp only [decide_eq_false_iff_not]
      omega
    have hev : (add_to_cache cap k it (run cap maxLT defLT ops)).1
        = ((run cap maxLT defLT ops) ++ [(k, [it])]).tail := by
      simp [add_to_cache, hfb, hv]
    refine ⟨hev, ?_, ?_⟩
    · rw [hev]
      simp only [size, List.length_tail, List.length_append, List.length_cons,
        List.length_nil]
      omega
    · intro nd0 h0
      have hpair := touches_arun_pairwise cap maxLT defLT ops
      constructor
      · rw [← aProj_arun cap maxLT defLT ops, aProj, List.head?_map]
        simp only [Option.mem_def] at h0
        rw [h0]
        rfl
      · exact head_touch_min hpair nd0 h0
  · decide

/-- Witness for C2: with capacity 2, after put(A), put(B) the store is full and
put(C) evicts the head, leaving [B, C] as the eviction equation states. -/
theorem c2_eviction_lru_witness :
    (add_to_cache 2 kC itemZero
        (run 2 0 0 [Op.addOrUpdate kA itemZero, Op.addOrUpdate kB itemZero])).1
      = ((run 2 0 0 [Op.addOrUpdate kA itemZero, Op.addOrUpdate kB itemZero])
          ++ [(kC, [itemZero])]).tail :=
  (c2_eviction_lru.1 Int 2 0 0 [Op.addOrUpdate kA itemZero, Op.addOrUpdate kB itemZero]
    kC itemZero (by decide) (by decide)).1

/-- Witness for C6 (amended): both registrations succeed at capacity 1. -/
theorem c6_double_registration_witness :
    ∃ s1 : Store Int, ∃ it1 it2 : CacheItem Int,
      cache_decorator 1 10 5 (some kQ) (LifeTimeArg.int 1) 1 0 ([] : Store Int)
        = Except.ok (s1, it1)
      ∧ cache_decorator 1 10 5 (some kQ) (LifeTimeArg.int 1) 2 0 s1
          = Except.ok ([(kQ, [it1, it2])], it2) := by
  obtain ⟨s1, it1, it2, h1, h2, _, _⟩ :=
    c6_double_registration 1 10 5 kQ 1 1 1 2 0 0 (fun _ => (0 : Int)) (by decide)
  exact ⟨s1, it1, it2, h1, h2⟩

end BasisCore
